import Mathlib

/-!
Shallow embedding of `timelock.py` (Rivest–Shamir–Wagner time-lock puzzles).

Pure fragments of the Python source are translated into executable Lean
definitions; randomness (`getPrime`, `getRandomInteger`) and wall-clock reads
become explicit parameters, and fallible operations (file I/O, AES key-size
checks) become `Except`/`Option` results.
-/

namespace Timelock

/-! Time constants, `timelock.py` lines 23–28. -/

def SECOND : ℕ := 1
def MINUTE : ℕ := 60
def HOUR : ℕ := MINUTE * 60
def DAY : ℕ := HOUR * 24
def MONTH : ℕ := DAY * 31
def YEAR : ℕ := DAY * 365

/-- Modulus size for the puzzle, line 30. -/
def MOD_BITS : ℕ := 2048

/-- Bit size of the random secret key, line 31. -/
def AES_BITS : ℕ := 192

/-! ## The sequential squaring solver core

`solve_puzzle` (lines 175–193) runs `tmp = pow(tmp, 2, N)` in a loop
`while i < t`.  `solveLoop N a t` is that loop's value after `t` squarings. -/

/-- One squaring step `tmp = pow(tmp, 2, N)` of the solver loop. -/
def squareStep (N x : ℕ) : ℕ := x ^ 2 % N

/-- Value of the solver's accumulator after `t` squaring steps starting
from `a` (the pure content of the `while i < t` loop of `solve_puzzle`). -/
def solveLoop (N a : ℕ) : ℕ → ℕ
  | 0 => a
  | t + 1 => squareStep N (solveLoop N a t)

/-- Instrumented solver loop: also counts how many modular squarings the
loop body performed (the counter `i` of the Python loop). -/
def solveSteps (N a : ℕ) : ℕ → ℕ × ℕ
  | 0 => (a, 0)
  | t + 1 =>
    let p := solveSteps N a t
    (squareStep N p.1, p.2 + 1)

/-! ## Puzzle construction, `makepuzzle` (lines 125–139)

The randomness consumed by `makepuzzle` is made explicit: `p`, `q` are the
two primes returned by `number.getPrime(MOD_BITS/2)`, `keyR` the value of
`number.getRandomInteger(AES_BITS)` and `aR` that of
`number.getRandomInteger(MOD_BITS)`. -/

structure PuzzleParams where
  N : ℕ
  a : ℕ
  steps : ℕ
  cipher_key : ℕ
deriving DecidableEq, Repr

structure PuzzleBuild where
  key : ℕ
  keyBytes : List ℕ
  params : PuzzleParams
deriving DecidableEq, Repr

/-- Big-endian base-256 digits of `n` (empty for `n = 0`), with explicit
structural fuel so that the definition reduces in the kernel.  Mirrors the
packing loop of PyCrypto's `number.long_to_bytes`. -/
def beBytes : ℕ → ℕ → List ℕ
  | 0, _ => []
  | f + 1, n => if n = 0 then [] else beBytes f (n / 256) ++ [n % 256]

/-- PyCrypto `number.long_to_bytes n blocksize`: minimal big-endian byte
string of `n` (a single zero byte for `n = 0`), left-padded with zero bytes
to a multiple of `blocksize`. -/
def long_to_bytes (n bs : ℕ) : List ℕ :=
  let s := if n = 0 then [0] else beBytes n n
  if 0 < bs ∧ s.length % bs ≠ 0 then List.replicate (bs - s.length % bs) 0 ++ s else s

/-- `makepuzzle(t)` with its random draws (`p`, `q`, `keyR`, `aR`) made
explicit.  Returns the secret key, its 32-byte encoding
(`number.long_to_bytes(key, 32)`) and the published puzzle dictionary. -/
def makepuzzle (t p q keyR aR : ℕ) : PuzzleBuild :=
  let N := p * q
  let totient := (p - 1) * (q - 1)
  let key := keyR
  let a := aR % N
  let e := 2 ^ t % totient
  let b := a ^ e % N
  let cipher_key := (key + b) % N
  ⟨key, long_to_bytes key 32, ⟨N, a, t, cipher_key⟩⟩

/-- The recovery arithmetic of `solve_puzzle` line 193:
`key = (p['cipher_key'] - tmp) % N`, with Python's nonnegative `%`
(Euclidean `%` on `ℤ`). -/
def recoverKey (cipher_key tmp N : ℕ) : ℤ :=
  ((cipher_key : ℤ) - (tmp : ℤ)) % (N : ℤ)

/-- Full solve-and-recover pipeline of `solve_puzzle` (lines 175–193) on a
puzzle dictionary: run the squaring loop, then apply the recovery
arithmetic. -/
def solvePuzzleKey (P : PuzzleParams) : ℤ :=
  recoverKey P.cipher_key (solveLoop P.N P.a P.steps) P.N

/-! ## Basic solver lemmas -/

theorem solveLoop_eq_pow (N a : ℕ) (ha : a < N) :
    ∀ t, solveLoop N a t = a ^ 2 ^ t % N := by
  intro t
  induction t with
  | zero => simp [solveLoop, Nat.mod_eq_of_lt ha]
  | succ t ih =>
    rw [solveLoop, squareStep, ih, ← Nat.pow_mod, ← pow_mul, ← pow_succ]

theorem solveLoop_add (N a m s : ℕ) :
    solveLoop N a (m + s) = solveLoop N (solveLoop N a m) s := by
  induction s with
  | zero => rfl
  | succ s ih => rw [← Nat.add_assoc, solveLoop, ih, solveLoop]

theorem solveSteps_eq (N a : ℕ) : ∀ t, solveSteps N a t = (solveLoop N a t, t) := by
  intro t
  induction t with
  | zero => rfl
  | succ t ih => rw [solveSteps, ih, solveLoop]

/-! ## Trapdoor correctness: `a^(2^t mod φ) ≡ a^(2^t) (mod p q)` -/

theorem pow_add_multiple_modEq (p : ℕ) (hp : p.Prime) (a m j : ℕ)
    (hm : (p - 1) ∣ m) (hj : j ≠ 0) : a ^ (m + j) ≡ a ^ j [MOD p] := by
  by_cases hpa : p ∣ a
  · have ha0 : a ≡ 0 [MOD p] := (Nat.modEq_zero_iff_dvd).2 hpa
    have h1 : a ^ (m + j) ≡ 0 ^ (m + j) [MOD p] := ha0.pow _
    have h2 : a ^ j ≡ 0 ^ j [MOD p] := ha0.pow _
    rw [zero_pow (by omega : m + j ≠ 0)] at h1
    rw [zero_pow hj] at h2
    exact h1.trans h2.symm
  · have hcop : a.Coprime p := (hp.coprime_iff_not_dvd.2 hpa).symm
    obtain ⟨c, rfl⟩ := hm
    have heuler : a ^ (p - 1) ≡ 1 [MOD p] := by
      have := Nat.ModEq.pow_totient hcop
      rwa [Nat.totient_prime hp] at this
    have hone : a ^ ((p - 1) * c) ≡ 1 [MOD p] := by
      rw [pow_mul]
      simpa using heuler.pow c
    calc a ^ ((p - 1) * c + j) = a ^ ((p - 1) * c) * a ^ j := pow_add a _ j
      _ ≡ 1 * a ^ j [MOD p] := hone.mul_right _
      _ = a ^ j := one_mul _

theorem trapdoor_pow_eq (p q : ℕ) (hp : p.Prime) (hq : q.Prime) (hpq : p ≠ q)
    (a t : ℕ) (hnd : ¬ (p - 1) * (q - 1) ∣ 2 ^ t) :
    a ^ (2 ^ t % ((p - 1) * (q - 1))) % (p * q) = a ^ 2 ^ t % (p * q) := by
  set φ := (p - 1) * (q - 1) with hφ
  set e := 2 ^ t % φ with he
  have hsplit : φ * (2 ^ t / φ) + e = 2 ^ t := Nat.div_add_mod _ _
  have he0 : e ≠ 0 := fun h => hnd (Nat.dvd_of_mod_eq_zero h)
  have hpm : (p - 1) ∣ φ * (2 ^ t / φ) := Dvd.dvd.mul_right ⟨q - 1, hφ⟩ _
  have hqm : (q - 1) ∣ φ * (2 ^ t / φ) :=
    Dvd.dvd.mul_right ⟨p - 1, by rw [hφ, Nat.mul_comm]⟩ _
  have h1 : a ^ (φ * (2 ^ t / φ) + e) ≡ a ^ e [MOD p] :=
    pow_add_multiple_modEq p hp a _ e hpm he0
  have h2 : a ^ (φ * (2 ^ t / φ) + e) ≡ a ^ e [MOD q] :=
    pow_add_multiple_modEq q hq a _ e hqm he0
  have hcop : Nat.Coprime p q := (Nat.coprime_primes hp hq).2 hpq
  have h : a ^ (φ * (2 ^ t / φ) + e) ≡ a ^ e [MOD p * q] :=
    (Nat.modEq_and_modEq_iff_modEq_mul hcop).1 ⟨h1, h2⟩
  rw [hsplit] at h
  exact h.symm

/-- The non-divisibility side condition of the trapdoor identity holds for
every modulus the construction can actually generate: a 1024-bit prime `p`
never has `p - 1` dividing a power of two, because that would force
`p = 2^1023 + 1`, which is divisible by 3. -/
theorem totient_factor_not_dvd_two_pow (p : ℕ) (hp : p.Prime)
    (hlo : 2 ^ 1023 ≤ p) (hhi : p < 2 ^ 1024) (t : ℕ) : ¬ (p - 1) ∣ 2 ^ t := by
  intro hdvd
  obtain ⟨k, _, hk⟩ := (Nat.dvd_prime_pow Nat.prime_two).1 hdvd
  have hp2 : 2 ≤ p := hp.two_le
  have hklo : 1023 ≤ k := by
    by_contra hlt
    have hk1022 : k ≤ 1022 := by omega
    have h1 : (2 : ℕ) ^ k ≤ 2 ^ 1022 := Nat.pow_le_pow_right (by norm_num) hk1022
    have h2 : (2 : ℕ) ^ 1022 + 2 ^ 1022 = 2 ^ 1023 := by ring
    have h3 : (2 : ℕ) ≤ 2 ^ 1022 := by
      calc (2 : ℕ) = 2 ^ 1 := (pow_one 2).symm
        _ ≤ 2 ^ 1022 := Nat.pow_le_pow_right (by norm_num) (by norm_num)
    omega
  have hkhi : k < 1024 := by
    have h1 : (2 : ℕ) ^ k < 2 ^ 1024 := by omega
    exact (Nat.pow_lt_pow_iff_right (by norm_num)).1 h1
  have hk1023 : k = 1023 := by omega
  have hpeq : p = 2 ^ 1023 + 1 := by
    subst hk1023; omega
  have h3 : (3 : ℕ) ∣ p := by
    have h4 : (2 : ℕ) ^ 1023 % 3 = 2 := by
      have : (2 : ℕ) ^ 1023 = 2 * 4 ^ 511 := by ring
      rw [this, Nat.mul_mod, Nat.pow_mod]
      norm_num
    omega
  rcases (Nat.Prime.eq_one_or_self_of_dvd hp 3 h3) with h | h
  · omega
  · have : (3 : ℕ) < 2 ^ 1023 :=
      lt_of_lt_of_le (by norm_num : (3:ℕ) < 2 ^ 2) (Nat.pow_le_pow_right (by norm_num) (by norm_num))
    omega

theorem makepuzzle_key (t p q keyR aR : ℕ) : (makepuzzle t p q keyR aR).key = keyR := rfl

theorem makepuzzle_keyBytes (t p q keyR aR : ℕ) :
    (makepuzzle t p q keyR aR).keyBytes = long_to_bytes keyR 32 := rfl

theorem makepuzzle_N (t p q keyR aR : ℕ) : (makepuzzle t p q keyR aR).params.N = p * q := rfl

theorem makepuzzle_a (t p q keyR aR : ℕ) :
    (makepuzzle t p q keyR aR).params.a = aR % (p * q) := rfl

theorem makepuzzle_steps (t p q keyR aR : ℕ) : (makepuzzle t p q keyR aR).params.steps = t := rfl

theorem makepuzzle_cipher_key (t p q keyR aR : ℕ) :
    (makepuzzle t p q keyR aR).params.cipher_key
      = (keyR + (aR % (p * q)) ^ (2 ^ t % ((p - 1) * (q - 1))) % (p * q)) % (p * q) := rfl

/-- Claim C1: for every puzzle produced by `makepuzzle` (modelled with its
random draws `p`, `q`, `keyR`, `aR` explicit, `p`, `q` the two distinct
primes) whose secret key is strictly less than `N = p*q`, running the
sequential solver loop of `solve_puzzle` on the published parameters and
then applying the recovery arithmetic `(cipher_key - solved_value) mod N`
yields back exactly the secret key generated at build time.  The side
condition `¬ (p-1)*(q-1) ∣ 2^t` holds for every modulus the generator can
produce, by `totient_factor_not_dvd_two_pow`. -/
theorem recover_after_solve_eq_secret_key (t p q keyR aR : ℕ)
    (hp : p.Prime) (hq : q.Prime) (hpq : p ≠ q)
    (hkey : keyR < p * q) (hnd : ¬ (p - 1) * (q - 1) ∣ 2 ^ t) :
    solvePuzzleKey (makepuzzle t p q keyR aR).params
      = ((makepuzzle t p q keyR aR).key : ℤ) := by
  have hN : 0 < p * q := Nat.mul_pos hp.pos hq.pos
  have ha : aR % (p * q) < p * q := Nat.mod_lt _ hN
  have hsolve : solveLoop (p * q) (aR % (p * q)) t
      = (aR % (p * q)) ^ (2 ^ t % ((p - 1) * (q - 1))) % (p * q) := by
    rw [solveLoop_eq_pow _ _ ha, trapdoor_pow_eq p q hp hq hpq _ t hnd]
  simp only [solvePuzzleKey, makepuzzle_key, makepuzzle_N, makepuzzle_a, makepuzzle_steps,
    makepuzzle_cipher_key, recoverKey]
  rw [hsolve]
  set b := (aR % (p * q)) ^ (2 ^ t % ((p - 1) * (q - 1))) % (p * q) with hb
  rw [Int.natCast_mod]
  have h1 : ((keyR + b : ℕ) : ℤ) % ((p * q : ℕ) : ℤ) % ((p * q : ℕ) : ℤ)
      = ((keyR + b : ℕ) : ℤ) % ((p * q : ℕ) : ℤ) := Int.emod_emod_of_dvd _ dvd_rfl
  have h2 : (((keyR + b : ℕ) : ℤ) % ((p * q : ℕ) : ℤ) - ((b : ℕ) : ℤ)) % ((p * q : ℕ) : ℤ)
      = (((keyR + b : ℕ) : ℤ) - ((b : ℕ) : ℤ)) % ((p * q : ℕ) : ℤ) := by
    conv_lhs => rw [Int.sub_emod]
    conv_rhs => rw [Int.sub_emod]
    rw [h1]
  rw [h2]
  have h3 : ((keyR + b : ℕ) : ℤ) - ((b : ℕ) : ℤ) = (keyR : ℤ) := by push_cast; ring
  rw [h3]
  exact Int.emod_eq_of_lt (by positivity) (by exact_mod_cast hkey)

/-- Witness for C1 on the concrete puzzle `makepuzzle 2 3 5 7 2`
(primes 3 and 5, two squarings, secret key 7, base draw 2). -/
theorem recover_after_solve_eq_secret_key_witness :
    Timelock.solvePuzzleKey (Timelock.makepuzzle 2 3 5 7 2).params
      = ((Timelock.makepuzzle 2 3 5 7 2).key : ℤ) :=
  recover_after_solve_eq_secret_key 2 3 5 7 2 (by norm_num) (by norm_num)
    (by norm_num) (by norm_num) (by decide)

/-- Claim C2: the solver loop performs exactly `t` modular squarings, its
final value is `a^(2^t) mod N`, and restarting from the checkpointed
intermediate value `a^(2^(t-s)) mod N` with `s` remaining steps reproduces
the same final value as solving from scratch. -/
theorem solver_counts_and_resumes (N a t : ℕ) (ha : a < N) :
    (solveSteps N a t).2 = t ∧
    solveLoop N a t = a ^ 2 ^ t % N ∧
    (∀ s, s ≤ t → solveLoop N (a ^ 2 ^ (t - s) % N) s = solveLoop N a t) := by
  refine ⟨by rw [solveSteps_eq], solveLoop_eq_pow N a ha t, ?_⟩
  intro s hs
  have h1 : a ^ 2 ^ (t - s) % N = solveLoop N a (t - s) :=
    (solveLoop_eq_pow N a ha (t - s)).symm
  rw [h1, ← solveLoop_add, Nat.sub_add_cancel hs]

/-- Witness for C2 at `N = 15`, `a = 2`, `t = 2`, resuming at `s = 1`. -/
theorem solver_counts_and_resumes_witness :
    (solveSteps 15 2 2).2 = 2 ∧ solveLoop 15 2 2 = 2 ^ 2 ^ 2 % 15 ∧
      solveLoop 15 (2 ^ 2 ^ (2 - 1) % 15) 1 = solveLoop 15 2 2 :=
  ⟨(solver_counts_and_resumes 15 2 2 (by norm_num)).1,
   (solver_counts_and_resumes 15 2 2 (by norm_num)).2.1,
   (solver_counts_and_resumes 15 2 2 (by norm_num)).2.2 1 (by norm_num)⟩

/-! ## ETA estimation, `eta` (lines 141–154)

`eta(remaining, speed)` computes `seconds = remaining/speed` and walks a
fixed if-chain of thresholds.  Throughput is modelled as a rational and the
`'%d' % x` formatting of the nonnegative magnitudes as `Int.floor`. -/

inductive TimeUnit where
  | seconds
  | minutes
  | hours
  | days
  | months
  | years
deriving DecidableEq, Repr

/-- The unit and integer magnitude that `eta` renders into its string. -/
def etaModel (remaining speed : ℚ) : TimeUnit × ℤ :=
  let seconds := remaining / speed
  if seconds < 100 * (SECOND : ℚ) then (TimeUnit.seconds, ⌊seconds⌋)
  else if seconds < 100 * (MINUTE : ℚ) then (TimeUnit.minutes, ⌊seconds / (MINUTE : ℚ)⌋)
  else if seconds < 100 * (HOUR : ℚ) then (TimeUnit.hours, ⌊seconds / (HOUR : ℚ)⌋)
  else if seconds < 60 * (DAY : ℚ) then (TimeUnit.days, ⌊seconds / (DAY : ℚ)⌋)
  else if seconds < 20 * (MONTH : ℚ) then (TimeUnit.months, ⌊seconds / (MONTH : ℚ)⌋)
  else (TimeUnit.years, ⌊seconds / (YEAR : ℚ)⌋)

/-- Number of seconds denoted by one of `eta`'s display units. -/
def unitSeconds : TimeUnit → ℕ
  | TimeUnit.seconds => SECOND
  | TimeUnit.minutes => MINUTE
  | TimeUnit.hours => HOUR
  | TimeUnit.days => DAY
  | TimeUnit.months => MONTH
  | TimeUnit.years => YEAR

/-- Duration, in seconds, denoted by a rendered `eta` result. -/
def renderedSeconds (u : TimeUnit × ℤ) : ℤ := (unitSeconds u.1 : ℤ) * u.2

/-- Claim C8: for every nonnegative remaining step count and strictly
positive throughput, `eta` selects its display unit by the fixed ordered
thresholds of the if-chain, and the reported magnitude is nonnegative and
stays below 100 of the unit (below 60 days and 20 months on the two
branches with even tighter caps) before promoting to a coarser unit. -/
theorem eta_unit_magnitude_bounds (r s : ℚ) (hr : 0 ≤ r) (hs : 0 < s) :
    0 ≤ (etaModel r s).2 ∧
    ((etaModel r s).1 = TimeUnit.seconds → (etaModel r s).2 < 100) ∧
    ((etaModel r s).1 = TimeUnit.minutes → (etaModel r s).2 < 100) ∧
    ((etaModel r s).1 = TimeUnit.hours → (etaModel r s).2 < 100) ∧
    ((etaModel r s).1 = TimeUnit.days → (etaModel r s).2 < 60) ∧
    ((etaModel r s).1 = TimeUnit.months → (etaModel r s).2 < 20) := by
  have hsec : 0 ≤ r / s := div_nonneg hr (le_of_lt hs)
  simp only [etaModel, SECOND, MINUTE, HOUR, DAY, MONTH, YEAR]
  norm_num
  split_ifs with h1 h2 h3 h4 h5 <;>
    refine ⟨?_, ?_, ?_, ?_, ?_, ?_⟩ <;>
      simp only [reduceCtorEq, IsEmpty.forall_iff, forall_const, imp_self, true_implies] <;>
        first
          | exact Int.floor_nonneg.2 (by positivity)
          | (rw [Int.floor_lt]; push_cast; rw [div_lt_iff₀ (by norm_num)]; linarith)
          | (rw [Int.floor_lt]; push_cast; linarith)

/-- Witness for C8 at `remaining = 50`, `speed = 1`. -/
theorem eta_unit_magnitude_bounds_witness :
    0 ≤ (etaModel 50 1).2 ∧
    ((etaModel 50 1).1 = TimeUnit.seconds → (etaModel 50 1).2 < 100) ∧
    ((etaModel 50 1).1 = TimeUnit.minutes → (etaModel 50 1).2 < 100) ∧
    ((etaModel 50 1).1 = TimeUnit.hours → (etaModel 50 1).2 < 100) ∧
    ((etaModel 50 1).1 = TimeUnit.days → (etaModel 50 1).2 < 60) ∧
    ((etaModel 50 1).1 = TimeUnit.months → (etaModel 50 1).2 < 20) :=
  eta_unit_magnitude_bounds 50 1 (by norm_num) (by norm_num)

/-- Counterexample to claim C9 as stated: decreasing the remaining step
count from 100 to 99 at throughput 1 increases the rendered duration from
`1 minutes` (60 seconds) to `99 seconds`, so the reported duration is not
monotonically non-increasing as the remaining step count decreases. -/
theorem eta_not_monotone_counterexample :
    etaModel 100 1 = (TimeUnit.minutes, 1) ∧ etaModel 99 1 = (TimeUnit.seconds, 99) ∧
      renderedSeconds (etaModel 100 1) < renderedSeconds (etaModel 99 1) := by
  have h100 : etaModel 100 1 = (TimeUnit.minutes, 1) := by
    simp only [etaModel, SECOND, MINUTE, HOUR, DAY, MONTH, YEAR]
    norm_num
  have h99 : etaModel 99 1 = (TimeUnit.seconds, 99) := by
    simp only [etaModel, SECOND, MINUTE, HOUR, DAY, MONTH, YEAR]
    norm_num
  refine ⟨h100, h99, ?_⟩
  rw [h100, h99]
  simp only [renderedSeconds, unitSeconds, SECOND, MINUTE]
  norm_num

/-- Claim C9 as amended: with throughput fixed and positive, the exact
duration `remaining/speed` is non-increasing as `remaining` decreases, and
among step counts rendered with the same display unit the reported
magnitude is non-increasing as well; monotonicity of the rendered duration
only fails across unit promotions (see the counterexample). -/
theorem eta_monotone_within_unit (s r1 r2 : ℚ) (hs : 0 < s) (h12 : r1 ≤ r2)
    (hu : (etaModel r1 s).1 = (etaModel r2 s).1) :
    r1 / s ≤ r2 / s ∧ (etaModel r1 s).2 ≤ (etaModel r2 s).2 := by
  have hsec : r1 / s ≤ r2 / s := by gcongr
  refine ⟨hsec, ?_⟩
  simp only [etaModel, SECOND, MINUTE, HOUR, DAY, MONTH, YEAR] at hu ⊢
  norm_num at hu ⊢
  split_ifs at hu ⊢ <;>
    first
      | exact Int.floor_le_floor hsec
      | exact Int.floor_le_floor (by gcongr)
      | simp_all

/-- Witness for the amended C9 at `speed = 1`, `r1 = 30 ≤ r2 = 50`
(both rendered in seconds). -/
theorem eta_monotone_within_unit_witness :
    (30 : ℚ) / 1 ≤ 50 / 1 ∧ (etaModel 30 1).2 ≤ (etaModel 50 1).2 :=
  eta_monotone_within_unit 1 30 50 (by norm_num) (by norm_num)
    (by simp only [etaModel, SECOND, MINUTE, HOUR, DAY, MONTH, YEAR]; norm_num)

/-! ## Speed calibration, `calibrate_speed` (lines 103–112)

The code performs one measurement of `trials = 100` squarings and returns
`int(trials/(time.time() - start))`.  The elapsed wall-clock time is made an
explicit parameter; Python raises `ZeroDivisionError` when it is exactly
zero, modelled as `none`. -/

def calibrate_speed_model (elapsed : ℚ) : Option ℤ :=
  if elapsed = 0 then none else some ⌊(100 : ℚ) / elapsed⌋

/-- Counterexample to claim C4 as stated: with a measured elapsed time of
200 seconds for the 100 trial squarings, `calibrate_speed` returns 0 — it
does not retry with a larger trial count and the result is not strictly
positive. -/
theorem calibrate_speed_zero_counterexample :
    calibrate_speed_model 200 = some 0 ∧ calibrate_speed_model 0 = Option.none := by
  constructor
  · simp only [calibrate_speed_model]
    norm_num
  · simp [calibrate_speed_model]

/-- Claim C4 as amended: calibration performs a single fixed 100-trial
measurement with no retry; for a positive elapsed time it returns
`⌊100/elapsed⌋`, which is strictly positive exactly when the elapsed time
is at most 100 seconds (and 0 beyond that); a zero elapsed measurement
raises `ZeroDivisionError` instead of retrying. -/
theorem calibrate_speed_single_measurement (e : ℚ) (he : 0 < e) :
    calibrate_speed_model e = some ⌊(100 : ℚ) / e⌋ ∧
      (0 < ⌊(100 : ℚ) / e⌋ ↔ e ≤ 100) := by
  constructor
  · simp [calibrate_speed_model, ne_of_gt he]
  · constructor
    · intro h
      by_contra hgt
      push_neg at hgt
      have hlt : (100 : ℚ) / e < 1 := (div_lt_one he).2 hgt
      have : ⌊(100 : ℚ) / e⌋ < 1 := Int.floor_lt.2 (by push_cast; linarith)
      omega
    · intro h
      have h1 : (1 : ℚ) ≤ 100 / e := (one_le_div he).2 h
      have := Int.le_floor.2 (by push_cast; linarith : ((1 : ℤ) : ℚ) ≤ 100 / e)
      omega

/-- Witness for the amended C4 at `elapsed = 50`. -/
theorem calibrate_speed_single_measurement_witness :
    calibrate_speed_model 50 = some ⌊(100 : ℚ) / 50⌋ ∧
      (0 < ⌊(100 : ℚ) / 50⌋ ↔ (50 : ℚ) ≤ 100) :=
  calibrate_speed_single_measurement 50 (by norm_num)

/-! ## Solving with periodic checkpointing (lines 175–191)

The loop of `solve_puzzle` attempts `save_puzzle(p2)` whenever
`(i+1) % SAVE_INTERVAL == 0` and then squares.  `save_puzzle` performs
unguarded file I/O (lines 166–173, no `try`/`except` anywhere on the
path), so a failed write raises and unwinds out of `solve_puzzle`.
Whether the write at loop index `i` succeeds is abstracted into the
oracle `saveOK`; a failed save is the `Except.error` outcome. -/

def solveChk (N interval : ℕ) (saveOK : ℕ → Bool) : ℕ → ℕ → ℕ → Except Unit ℕ
  | 0, v, _ => Except.ok v
  | r + 1, v, i =>
    if (i + 1) % interval = 0 ∧ saveOK i = false then Except.error ()
    else solveChk N interval saveOK r (v ^ 2 % N) (i + 1)

theorem solveChk_ok (N interval : ℕ) (saveOK : ℕ → Bool) :
    ∀ r v i, (∀ j, i ≤ j → j < i + r → (j + 1) % interval = 0 → saveOK j = true) →
      solveChk N interval saveOK r v i = Except.ok (solveLoop N v r) := by
  intro r
  induction r with
  | zero => intro v i _; rfl
  | succ r ih =>
    intro v i hsave
    rw [solveChk]
    have hnot : ¬((i + 1) % interval = 0 ∧ saveOK i = false) := by
      rintro ⟨hmod, hfail⟩
      have := hsave i (Nat.le_refl i) (by omega) hmod
      rw [this] at hfail
      exact Bool.noConfusion hfail
    rw [if_neg hnot]
    have hstep : solveLoop N v (r + 1) = solveLoop N (v ^ 2 % N) r := by
      have h1 : r + 1 = 1 + r := Nat.add_comm r 1
      rw [h1, solveLoop_add]
      rfl
    rw [hstep]
    exact ih (v ^ 2 % N) (i + 1) (fun j h1 h2 h3 => hsave j (by omega) (by omega) h3)

/-- Counterexample to claim C5 as stated: with a save interval of 1 and a
checkpoint write that fails at the first attempt, the solver aborts with
the propagated exception instead of continuing in memory and returning the
correct final value `solveLoop 15 2 2`. -/
theorem checkpoint_failure_aborts_counterexample :
    solveChk 15 1 (fun _ => false) 2 2 0 = Except.error () ∧
      solveChk 15 1 (fun _ => false) 2 2 0 ≠ Except.ok (solveLoop 15 2 2) := by
  refine ⟨rfl, ?_⟩
  intro h
  have h1 : solveChk 15 1 (fun _ => false) 2 2 0 = Except.error () := rfl
  rw [h1] at h
  exact Except.noConfusion h

/-- Claim C5 as amended: a failure to persist a periodic checkpoint raises
an unhandled exception that aborts the solve (see the counterexample);
only when every checkpoint write on the solve path succeeds does the loop
run to completion, in which case it produces exactly the sequential
squaring value `solveLoop N a t`. -/
theorem solve_completes_when_saves_succeed (N interval t a : ℕ) (saveOK : ℕ → Bool)
    (hsave : ∀ j, j < t → (j + 1) % interval = 0 → saveOK j = true) :
    solveChk N interval saveOK t a 0 = Except.ok (solveLoop N a t) :=
  solveChk_ok N interval saveOK t a 0 (fun j _ h2 h3 => hsave j (by omega) h3)

/-- Witness for the amended C5: interval 2, all saves succeeding,
`N = 15`, `a = 2`, `t = 4`. -/
theorem solve_completes_when_saves_succeed_witness :
    solveChk 15 2 (fun _ => true) 4 2 0 = Except.ok (solveLoop 15 2 4) :=
  solve_completes_when_saves_succeed 15 2 4 2 (fun _ => true) (fun j _ _ => rfl)

/-! ## Resume-from-file, `_decode_file` (lines 265–271)

The source reads the saved state with `puzzle = eval(open(file).read())`
and immediately calls `solve_puzzle(puzzle)`: arbitrary Python is executed
and no field of the recovered dictionary is validated — any
`PuzzleParams` value, whatever its ranges, is accepted and solved.  The
only failure path is a parse error (`exit(1)`). -/

def decode_and_solve (st : PuzzleParams) : ℤ := solvePuzzleKey st

/-- Claim C3 evaluated at a failing input: the puzzle built by
`makepuzzle 2 5 7 3 2` has `t = 2` and secret key 3, and resuming from a
saved state whose `steps` field was corrupted to `3 > t` is accepted by
the validation-free decode path and silently yields 8 instead of the real
key 3 — no `CheckpointCorruptError` (or any validation) exists in the
code. -/
theorem decode_accepts_corrupt_steps :
    (makepuzzle 2 5 7 3 2).params = ⟨35, 2, 2, 19⟩ ∧
    (makepuzzle 2 5 7 3 2).key = 3 ∧
    decode_and_solve ⟨35, 2, 2, 19⟩ = 3 ∧
    decode_and_solve ⟨35, 2, 3, 19⟩ = 8 ∧ ((8 : ℤ) ≠ 3) := by
  decide

/-! ## Byte-string formatting lemmas for `number.long_to_bytes` -/

theorem beBytes_zero (f : ℕ) : beBytes f 0 = [] := by
  cases f <;> simp [beBytes]

theorem beBytes_length (f : ℕ) :
    ∀ n, n ≠ 0 → n ≤ f → (beBytes f n).length = Nat.log 256 n + 1 := by
  induction f with
  | zero => intro n hn hf; omega
  | succ f ih =>
    intro n hn hf
    rw [beBytes, if_neg hn]
    by_cases hlt : n < 256
    · have hdiv : n / 256 = 0 := Nat.div_eq_of_lt hlt
      rw [hdiv, beBytes_zero]
      simp [Nat.log_eq_zero_iff, hlt]
    · push_neg at hlt
      have hdn : n / 256 ≠ 0 := by
        have := Nat.div_le_div_right (c := 256) hlt
        rw [Nat.div_self (by norm_num)] at this
        omega
      have hdlt : n / 256 < n := Nat.div_lt_self (by omega) (by norm_num)
      have hlen := ih (n / 256) hdn (by omega)
      rw [List.length_append, hlen]
      have hlog : Nat.log 256 (n / 256) = Nat.log 256 n - 1 := Nat.log_div_base 256 n
      have hpos : 0 < Nat.log 256 n := Nat.log_pos (by norm_num) hlt
      simp only [List.length_cons, List.length_nil]
      omega

theorem ofDigits_beBytes (f : ℕ) :
    ∀ n, n ≤ f → Nat.ofDigits 256 (beBytes f n).reverse = n := by
  induction f with
  | zero =>
    intro n hf
    have : n = 0 := by omega
    subst this
    simp [beBytes]
  | succ f ih =>
    intro n hf
    by_cases hn : n = 0
    · subst hn; simp [beBytes]
    · rw [beBytes, if_neg hn, List.reverse_append]
      have hdlt : n / 256 < n := Nat.div_lt_self (by omega) (by norm_num)
      have hrec := ih (n / 256) (by omega)
      simp only [List.reverse_cons, List.reverse_nil, List.nil_append, List.singleton_append,
        Nat.ofDigits_cons, hrec]
      omega

theorem ofDigits_replicate_zero (b : ℕ) : ∀ k, Nat.ofDigits b (List.replicate k 0) = 0 := by
  intro k
  induction k with
  | zero => rfl
  | succ k ih => simp [List.replicate_succ, Nat.ofDigits_cons, ih]

/-- `number.long_to_bytes(n, 32)` produces exactly 32 bytes for every
value below `2^256`. -/
theorem long_to_bytes_length_32 (n : ℕ) (hn : n < 2 ^ 256) :
    (long_to_bytes n 32).length = 32 := by
  rw [long_to_bytes]
  by_cases h0 : n = 0
  · subst h0
    simp
  · simp only [if_neg h0]
    have hlen : (beBytes n n).length = Nat.log 256 n + 1 :=
      beBytes_length n n h0 (Nat.le_refl n)
    have hlog : Nat.log 256 n < 32 :=
      Nat.log_lt_of_lt_pow h0 (by calc n < 2 ^ 256 := hn
        _ = 256 ^ 32 := by norm_num [← pow_mul])
    by_cases heq : Nat.log 256 n + 1 = 32
    · have hmod : (beBytes n n).length % 32 = 0 := by rw [hlen, heq]
      rw [if_neg (by simp [hmod])]
      omega
    · have hmod : (beBytes n n).length % 32 = Nat.log 256 n + 1 := by
        rw [hlen]; exact Nat.mod_eq_of_lt (by omega)
      rw [if_pos ⟨by norm_num, by omega⟩]
      simp only [List.length_append, List.length_replicate, hlen, hmod]
      omega

/-- For values of `2^256` or more, `number.long_to_bytes(n, 32)` produces
more than 32 bytes (a larger multiple of 32) — in particular never a valid
AES key length. -/
theorem long_to_bytes_length_big (n : ℕ) (hn : 2 ^ 256 ≤ n) :
    32 < (long_to_bytes n 32).length ∧ (long_to_bytes n 32).length % 32 = 0 := by
  have h0 : n ≠ 0 := by positivity
  rw [long_to_bytes]
  simp only [if_neg h0]
  have hlen : (beBytes n n).length = Nat.log 256 n + 1 :=
    beBytes_length n n h0 (Nat.le_refl n)
  have hlog : 32 ≤ Nat.log 256 n := by
    rw [← Nat.pow_le_iff_le_log (by norm_num) h0]
    calc (256 : ℕ) ^ 32 = 2 ^ 256 := by norm_num [← pow_mul]
      _ ≤ n := hn
  by_cases hmod : (beBytes n n).length % 32 = 0
  · rw [if_neg (by simp [hmod])]
    omega
  · rw [if_pos ⟨by norm_num, hmod⟩]
    simp only [List.length_append, List.length_replicate]
    omega

/-- The byte string denotes the formatted value (big-endian base 256). -/
theorem ofDigits_long_to_bytes (n : ℕ) :
    Nat.ofDigits 256 (long_to_bytes n 32).reverse = n := by
  rw [long_to_bytes]
  by_cases h0 : n = 0
  · subst h0
    decide
  · simp only [if_neg h0]
    by_cases hpad : 0 < 32 ∧ (beBytes n n).length % 32 ≠ 0
    · rw [if_pos hpad, List.reverse_append, Nat.ofDigits_append, List.reverse_replicate,
        ofDigits_replicate_zero, ofDigits_beBytes n n (Nat.le_refl n)]
      simp
    · rw [if_neg hpad]
      exact ofDigits_beBytes n n (Nat.le_refl n)

/-! ## Key recovery and formatting, `solve_puzzle` lines 193–194

After the loop, `key = (p['cipher_key'] - tmp) % N` and the key is
formatted with `number.long_to_bytes(key, 32)` and handed to the AES
constructor inside `decrypt_file`, which rejects any key whose byte length
is not 16, 24 or 32 (`ValueError`), modelled as the error outcome. -/

def recover_key_bytes (cipher_key tmp N : ℕ) : Except Unit (List ℕ) :=
  let k := (recoverKey cipher_key tmp N).toNat
  let bytes := long_to_bytes k 32
  if bytes.length = 16 ∨ bytes.length = 24 ∨ bytes.length = 32 then Except.ok bytes
  else Except.error ()

/-- Claim C6: key recovery computes `(cipher_key - squared_value) mod N`;
whenever that value fits the cipher's key size it is formatted as exactly
32 bytes (the fixed AES key length used by both `makepuzzle` and
`solve_puzzle`) denoting the recovered value in big-endian base 256, and
whenever it does not fit (the value needs more than 32 bytes) the AES key
length check rejects it and the recovery step fails. -/
theorem recover_key_formats_or_fails (cipher_key tmp N : ℕ) (hN : 0 < N) (k : ℕ)
    (hk : k = (recoverKey cipher_key tmp N).toNat) :
    (k < 2 ^ 256 →
       recover_key_bytes cipher_key tmp N = Except.ok (long_to_bytes k 32) ∧
       (long_to_bytes k 32).length = 32 ∧
       Nat.ofDigits 256 (long_to_bytes k 32).reverse = k) ∧
    (2 ^ 256 ≤ k → recover_key_bytes cipher_key tmp N = Except.error ()) := by
  constructor
  · intro hsmall
    have hlen := long_to_bytes_length_32 k hsmall
    refine ⟨?_, hlen, ofDigits_long_to_bytes k⟩
    rw [recover_key_bytes, ← hk]
    simp only [hlen]
    norm_num
  · intro hbig
    have hlen := long_to_bytes_length_big k hbig
    rw [recover_key_bytes, ← hk]
    rw [if_neg]
    omega

/-- Witness for C6 on the concrete recovery `(19 - 16) mod 35 = 3`. -/
theorem recover_key_formats_or_fails_witness :
    recover_key_bytes 19 16 35 = Except.ok (long_to_bytes 3 32) ∧
      (long_to_bytes 3 32).length = 32 ∧
      Nat.ofDigits 256 (long_to_bytes 3 32).reverse = 3 :=
  (recover_key_formats_or_fails 19 16 35 (by norm_num) 3 (by decide)).1 (by norm_num)

/-- Claim C10: every puzzle produced by `makepuzzle` — whose random draws
satisfy the generator guarantees `keyR < 2^192` (a 192-bit
`getRandomInteger`) and `2^1023 ≤ p, q` (1024-bit primes) — has its secret
key in `[0, 2^192)` and hence strictly below the modulus `N`, its base `a`
in `[0, N)`, its masked `cipher_key` in `[0, N)`, and a returned key byte
string of length exactly 32; `makepuzzle` takes no caller-supplied key, so
no key-range check is ever exercised. -/
theorem makepuzzle_invariants (t p q keyR aR : ℕ)
    (hkeyR : keyR < 2 ^ 192) (hp : 2 ^ 1023 ≤ p) (hq : 2 ^ 1023 ≤ q) :
    (makepuzzle t p q keyR aR).key < 2 ^ 192 ∧
    (makepuzzle t p q keyR aR).key < (makepuzzle t p q keyR aR).params.N ∧
    (makepuzzle t p q keyR aR).params.a < (makepuzzle t p q keyR aR).params.N ∧
    (makepuzzle t p q keyR aR).params.cipher_key < (makepuzzle t p q keyR aR).params.N ∧
    (makepuzzle t p q keyR aR).keyBytes.length = 32 := by
  have hbig : 2 ^ 2046 ≤ p * q := by
    calc (2 : ℕ) ^ 2046 = 2 ^ 1023 * 2 ^ 1023 := by rw [← pow_add]
      _ ≤ p * q := Nat.mul_le_mul hp hq
  have h192 : (2 : ℕ) ^ 192 < 2 ^ 2046 := Nat.pow_lt_pow_right (by norm_num) (by norm_num)
  have hN : 0 < p * q := by positivity
  refine ⟨hkeyR, ?_, ?_, ?_, ?_⟩
  · rw [makepuzzle_key, makepuzzle_N]
    omega
  · rw [makepuzzle_a, makepuzzle_N]
    exact Nat.mod_lt _ hN
  · rw [makepuzzle_cipher_key, makepuzzle_N]
    exact Nat.mod_lt _ hN
  · rw [makepuzzle_keyBytes]
    exact long_to_bytes_length_32 keyR (by
      calc keyR < 2 ^ 192 := hkeyR
        _ ≤ 2 ^ 256 := Nat.pow_le_pow_right (by norm_num) (by norm_num))

/-- Witness for C10 with both prime draws at the lower 1024-bit bound. -/
theorem makepuzzle_invariants_witness :
    (makepuzzle 1 (2 ^ 1023) (2 ^ 1023) 5 7).key < 2 ^ 192 ∧
    (makepuzzle 1 (2 ^ 1023) (2 ^ 1023) 5 7).key
      < (makepuzzle 1 (2 ^ 1023) (2 ^ 1023) 5 7).params.N ∧
    (makepuzzle 1 (2 ^ 1023) (2 ^ 1023) 5 7).params.a
      < (makepuzzle 1 (2 ^ 1023) (2 ^ 1023) 5 7).params.N ∧
    (makepuzzle 1 (2 ^ 1023) (2 ^ 1023) 5 7).params.cipher_key
      < (makepuzzle 1 (2 ^ 1023) (2 ^ 1023) 5 7).params.N ∧
    (makepuzzle 1 (2 ^ 1023) (2 ^ 1023) 5 7).keyBytes.length = 32 :=
  makepuzzle_invariants 1 (2 ^ 1023) (2 ^ 1023) 5 7 (by norm_num)
    (Nat.le_refl _) (Nat.le_refl _)

/-! ## Symmetric payload cipher, `encrypt_file`/`decrypt_file` (lines 36–101)
and `aes_encode`/`aes_decode` (lines 115–122)

The AES block permutation is an external collaborator and is abstracted
into a keyed block map `E` with inverse `D` on 16-byte blocks.  Bytes are
naturals; a payload is a byte list.  `encrypt_file` writes the original
length, a 16-byte IV and the CBC ciphertext of the space-padded payload;
`decrypt_file` decrypts everything and truncates to the stored length.
The chunked loop with a persistent `encryptor` object is equivalent to
CBC over all 16-byte blocks in order. -/

/-- Bytewise XOR of two equal-length blocks. -/
def bxor (a b : List ℕ) : List ℕ := List.zipWith (fun x y => x ^^^ y) a b

/-- Split a byte list into consecutive 16-byte blocks (`f` is structural
fuel, instantiated with the list length). -/
def chunkB : ℕ → List ℕ → List (List ℕ)
  | 0, _ => []
  | _ + 1, [] => []
  | f + 1, x :: l => (x :: l).take 16 :: chunkB f ((x :: l).drop 16)

/-- CBC-mode encryption over a block list, threading the previous
ciphertext block (initially the IV) into each XOR. -/
def cbcEnc (E : List ℕ → List ℕ) : List ℕ → List (List ℕ) → List (List ℕ)
  | _, [] => []
  | iv, b :: bs => E (bxor iv b) :: cbcEnc E (E (bxor iv b)) bs

/-- CBC-mode decryption over a block list. -/
def cbcDec (D : List ℕ → List ℕ) : List ℕ → List (List ℕ) → List (List ℕ)
  | _, [] => []
  | iv, c :: cs => bxor iv (D c) :: cbcDec D c cs

/-- `encrypt_file`'s per-chunk padding: the final short chunk is padded
with spaces (byte 32) to a multiple of 16; already-aligned payloads are
left untouched. -/
def pad_chunk (msg : List ℕ) : List ℕ :=
  if msg.length % 16 = 0 then msg else msg ++ List.replicate (16 - msg.length % 16) 32

structure EncFile where
  origsize : ℕ
  iv : List ℕ
  blocks : List (List ℕ)

/-- `encrypt_file`: store the payload length, the IV, and the CBC
ciphertext of the padded payload. -/
def encrypt_file_model (E : List ℕ → List ℕ) (iv msg : List ℕ) : EncFile :=
  ⟨msg.length, iv, cbcEnc E iv (chunkB (pad_chunk msg).length (pad_chunk msg))⟩

/-- `decrypt_file`: CBC-decrypt every block, concatenate, and truncate the
output file to the stored original size. -/
def decrypt_file_model (D : List ℕ → List ℕ) (f : EncFile) : List ℕ :=
  ((cbcDec D f.iv f.blocks).flatten).take f.origsize

/-- `aes_pad` (line 116): always appends `16 - len % 16` NUL bytes — 16 of
them when the message is already aligned. -/
def aes_pad (msg : List ℕ) : List ℕ := msg ++ List.replicate (16 - msg.length % 16) 0

/-- `aes_encode` (line 119): ECB encryption of the NUL-padded message. -/
def aes_encode_model (E : List ℕ → List ℕ) (msg : List ℕ) : List (List ℕ) :=
  (chunkB (aes_pad msg).length (aes_pad msg)).map E

/-- `aes_decode` (line 122): ECB decryption; no length is stored and no
padding is stripped. -/
def aes_decode_model (D : List ℕ → List ℕ) (ct : List (List ℕ)) : List ℕ :=
  ((ct.map D).flatten)

theorem chunkB_join (f : ℕ) : ∀ l : List ℕ, l.length ≤ f → (chunkB f l).flatten = l := by
  induction f with
  | zero =>
    intro l hl
    have : l = [] := List.eq_nil_of_length_eq_zero (by omega)
    subst this
    rfl
  | succ f ih =>
    intro l hl
    match l with
    | [] => rfl
    | x :: l =>
      rw [chunkB]
      simp only [List.flatten_cons]
      rw [ih ((x :: l).drop 16) (by simp [List.length_drop] at hl ⊢; omega)]
      exact List.take_append_drop 16 (x :: l)

theorem chunkB_block_length (f : ℕ) :
    ∀ l : List ℕ, l.length ≤ f → 16 ∣ l.length →
      ∀ b ∈ chunkB f l, b.length = 16 := by
  induction f with
  | zero =>
    intro l hl _
    have : l = [] := List.eq_nil_of_length_eq_zero (by omega)
    subst this
    intro b hb
    simp [chunkB] at hb
  | succ f ih =>
    intro l hl hdvd
    match l with
    | [] => intro b hb; simp [chunkB] at hb
    | x :: l =>
      intro b hb
      have hlen16 : 16 ≤ (x :: l).length := by
        rcases hdvd with ⟨k, hk⟩
        rcases Nat.eq_zero_or_pos k with h | h
        · simp [h] at hk
        · simp only [hk]; omega
      rw [chunkB] at hb
      rcases List.mem_cons.1 hb with h | h
      · subst h
        simp only [List.length_take]
        omega
      · refine ih _ ?_ ?_ b h
        · simp only [List.length_drop]
          omega
        · simp only [List.length_drop]
          exact (Nat.dvd_sub' hdvd (dvd_refl 16))

theorem bxor_cancel : ∀ b a : List ℕ, b.length ≤ a.length → bxor a (bxor a b) = b := by
  intro b
  induction b with
  | nil => intro a _; simp [bxor]
  | cons y bs ih =>
    intro a hlen
    match a with
    | [] => simp at hlen
    | x :: as =>
      simp only [bxor, List.zipWith_cons_cons]
      rw [show x ^^^ (x ^^^ y) = y by
        rw [← Nat.xor_assoc, Nat.xor_self, Nat.zero_xor]]
      have := ih as (by simpa using hlen)
      simp only [bxor] at this
      rw [this]

theorem cbcDec_cbcEnc (E D : List ℕ → List ℕ)
    (hE : ∀ b : List ℕ, b.length = 16 → (E b).length = 16)
    (hD : ∀ b : List ℕ, b.length = 16 → D (E b) = b) :
    ∀ bs : List (List ℕ), ∀ iv : List ℕ, iv.length = 16 →
      (∀ b ∈ bs, b.length = 16) → cbcDec D iv (cbcEnc E iv bs) = bs := by
  intro bs
  induction bs with
  | nil => intro iv _ _; rfl
  | cons b bs ih =>
    intro iv hiv hlen
    have hb : b.length = 16 := hlen b (List.mem_cons_self b bs)
    have hxlen : (bxor iv b).length = 16 := by
      simp [bxor, List.length_zipWith, hiv, hb]
    rw [cbcEnc, cbcDec, hD _ hxlen, bxor_cancel b iv (by omega)]
    rw [ih (E (bxor iv b)) (hE _ hxlen) (fun x hx => hlen x (List.mem_cons_of_mem b hx))]

theorem pad_chunk_aligned (msg : List ℕ) : 16 ∣ (pad_chunk msg).length := by
  rw [pad_chunk]
  split_ifs with h
  · exact Nat.dvd_of_mod_eq_zero h
  · simp only [List.length_append, List.length_replicate]
    have h16 : msg.length % 16 < 16 := Nat.mod_lt _ (by norm_num)
    have := Nat.div_add_mod msg.length 16
    exact ⟨msg.length / 16 + 1, by omega⟩

theorem pad_chunk_take (msg : List ℕ) : (pad_chunk msg).take msg.length = msg := by
  rw [pad_chunk]
  split_ifs with h
  · exact List.take_length msg
  · rw [List.take_append_of_le_length (Nat.le_refl _), List.take_length]

/-- Claim C7 as amended, round-trip half: for every key, IV and payload —
including payloads whose length is not a multiple of the 16-byte block —
decrypting an `encrypt_file` output with the same key reproduces the
original payload exactly, because the stored original length strips the
space padding. `E`/`D` abstract the AES block permutation: `D key` must
invert `E key` on 16-byte blocks, which preserve length. -/
theorem encrypt_then_decrypt_file_exact (E D : List ℕ → List ℕ → List ℕ)
    (key iv msg : List ℕ) (hiv : iv.length = 16)
    (hE : ∀ b : List ℕ, b.length = 16 → (E key b).length = 16)
    (hD : ∀ b : List ℕ, b.length = 16 → D key (E key b) = b) :
    decrypt_file_model (D key) (encrypt_file_model (E key) iv msg) = msg := by
  rw [decrypt_file_model, encrypt_file_model]
  simp only
  rw [cbcDec_cbcEnc (E key) (D key) hE hD _ iv hiv
    (chunkB_block_length _ _ (Nat.le_refl _) (pad_chunk_aligned msg))]
  rw [chunkB_join _ _ (Nat.le_refl _)]
  exact pad_chunk_take msg

/-- Witness for the amended C7 with the identity block permutation, a zero
IV and the 3-byte payload `[1, 2, 3]` (not block aligned). -/
theorem encrypt_then_decrypt_file_exact_witness :
    decrypt_file_model ((fun _ b => b) ([] : List ℕ))
        (encrypt_file_model ((fun _ b => b) ([] : List ℕ)) (List.replicate 16 0) [1, 2, 3])
      = [1, 2, 3] :=
  encrypt_then_decrypt_file_exact (fun _ b => b) (fun _ b => b) [] (List.replicate 16 0)
    [1, 2, 3] (by decide) (fun b hb => hb) (fun b _ => rfl)

/-- Counterexample to claim C7 as stated: the `aes_encode`/`aes_decode`
pair (used by `--pack`, also cited by the claim) stores no length and
strips no padding, so even with a perfectly inverting block cipher
(identity here) decryption returns the NUL-padded plaintext, which differs
from the original 1-byte payload. -/
theorem aes_roundtrip_not_exact_counterexample :
    aes_decode_model (fun b => b) (aes_encode_model (fun b => b) [7])
        = 7 :: List.replicate 15 0 ∧
      (7 :: List.replicate 15 0 : List ℕ) ≠ [7] := by
  decide

end Timelock
